import Mathlib

/-!
# Habit tracker (`src/App.js`): state operations and persistence

A shallow embedding of the state handling of the `App` component:

* the habit record and the component state (`useState` cells);
* `loadHabits` / `saveHabits` over a key-value store and a JSON codec that are
  taken as parameters (`Platform`), with the `try`/`catch` paths kept;
* `toggleHabit`, `saveHabit` (add and edit), `deleteHabit`, `resetDefaults`,
  the two confirmed ones through the `Alert` dialog they open;
* the derived header values `completedCount` and `percentage`, the latter in
  IEEE-754 binary64 arithmetic as JavaScript numbers compute it.
-/

set_option autoImplicit false
set_option maxRecDepth 8000

namespace HabitTracker

/-! ## Data model -/

/-- A habit record `{ id, name, description, completed }`. -/
structure Habit where
  id : String
  name : String
  description : String
  completed : Bool
  deriving DecidableEq, Repr

/-- The value stored under `STORAGE_KEY`: `{ habits, date }`. -/
structure Snapshot where
  habits : List Habit
  date : String
  deriving DecidableEq, Repr

/-- The storage key, `const STORAGE_KEY`. -/
def STORAGE_KEY : String := "@habit_tracker_data"

/-- The built-in habits, `const INITIAL_HABITS`. -/
def INITIAL_HABITS : List Habit :=
  [ { id := "1", name := "💧 Drink Water", description := "Drink 8 glasses", completed := false },
    { id := "2", name := "🏃 Exercise", description := "30 minutes workout", completed := false },
    { id := "3", name := "📚 Read", description := "Read for 20 minutes", completed := false },
    { id := "4", name := "🧘 Meditate", description := "10 minutes meditation", completed := false },
    { id := "5", name := "🥗 Eat Healthy", description := "Include vegetables", completed := false },
    { id := "6", name := "School Assignments",
      description := "Complete class works or assignments", completed := false } ]

/-- The `useState` cells of `App`. -/
structure AppState where
  habits : List Habit
  currentDate : String
  showModal : Bool
  editingHabit : Option Habit
  habitName : String
  habitDescription : String

/-- The state of a freshly mounted component (the `useState` initial values). -/
def AppState.initial : AppState :=
  { habits := INITIAL_HABITS, currentDate := "", showModal := false,
    editingHabit := none, habitName := "", habitDescription := "" }

/-- The call `setHabits(f)` with a functional update `f`. -/
def setHabits (f : List Habit → List Habit) (s : AppState) : AppState :=
  { s with habits := f s.habits }

/-! ## The `Alert` dialog -/

/-- One button of an `Alert.alert` call; `onPress` is the update of the habit list it runs. -/
structure AlertButton where
  text : String
  style : String
  onPress : Option (List Habit → List Habit)

/-- The arguments of an `Alert.alert` call. -/
structure AlertDialog where
  title : String
  message : String
  buttons : List AlertButton

/-- The user presses the button labelled `label` of the dialog: its `onPress`, when it has
one, is run on the state; a button without handler, or no such button, changes nothing. -/
def AlertDialog.press (d : AlertDialog) (label : String) (s : AppState) : AppState :=
  match d.buttons.find? (fun b => b.text == label) with
  | some b =>
    match b.onPress with
    | some f => setHabits f s
    | none => s
  | none => s

/-! ## Persistence -/

/-- The platform services `loadHabits` and `saveHabits` call: `AsyncStorage.getItem`,
`AsyncStorage.setItem`, `JSON.stringify` and `JSON.parse`. A call that throws (or whose
promise rejects) returns `Except.error`. The type `σ` is the content of the store. -/
structure Platform (σ : Type) where
  getItem : σ → String → Except String (Option String)
  setItem : σ → String → String → Except String σ
  stringify : Snapshot → String
  parse : String → Except String Snapshot

/-- The function `loadHabits`, run with the calendar day `today` (`new Date().toDateString()`)
on the store `store`; the result is the habit list of the state afterwards. Every path that
does not call `setHabits` (nothing stored, or an exception caught and logged) leaves the
list `current`. -/
def loadHabits {σ : Type} (P : Platform σ) (store : σ) (today : String)
    (current : List Habit) : List Habit :=
  match P.getItem store STORAGE_KEY with
  | .error _ => current
  | .ok none => current
  | .ok (some savedData) =>
    match P.parse savedData with
    | .error _ => current
    | .ok ⟨savedHabits, savedDate⟩ =>
      if savedDate = today then savedHabits
      else savedHabits.map (fun (habit : Habit) => { habit with completed := false })

/-- The function `saveHabits`, run on the day `today` with the habit list `habits`; the
result is the store afterwards (unchanged when the write throws). -/
def saveHabits {σ : Type} (P : Platform σ) (store : σ) (today : String)
    (habits : List Habit) : σ :=
  let dataToSave : Snapshot := { habits := habits, date := today }
  match P.setItem store STORAGE_KEY (P.stringify dataToSave) with
  | .ok store' => store'
  | .error _ => store

/-! ## Operations on the habit list -/

/-- The function `toggleHabit`. -/
def toggleHabit (id : String) (s : AppState) : AppState :=
  setHabits (fun prev =>
    prev.map (fun (habit : Habit) =>
      if habit.id = id then { habit with completed := !habit.completed } else habit)) s

/-- The function `openAddHabit`. -/
def openAddHabit (s : AppState) : AppState :=
  { s with editingHabit := none, habitName := "", habitDescription := "", showModal := true }

/-- The function `openEditHabit`. -/
def openEditHabit (habit : Habit) (s : AppState) : AppState :=
  { s with editingHabit := some habit, habitName := habit.name,
           habitDescription := habit.description, showModal := true }

/-- The code points `String.prototype.trim` strips: ECMAScript `WhiteSpace`
(TAB, VT, FF, ZWNBSP and the Unicode category `Zs`) and `LineTerminator`
(LF, CR, LS, PS). -/
def isTrimChar (c : Char) : Bool :=
  let n := c.toNat
  n == 0x9 || n == 0xA || n == 0xB || n == 0xC || n == 0xD || n == 0x20 || n == 0xA0 ||
  n == 0x1680 || (0x2000 ≤ n && n ≤ 0x200A) || n == 0x2028 || n == 0x2029 ||
  n == 0x202F || n == 0x205F || n == 0x3000 || n == 0xFEFF

/-- The method `String.prototype.trim`. -/
def trim (s : String) : String :=
  String.mk ((s.data.dropWhile isTrimChar).reverse.dropWhile isTrimChar).reverse

/-- The function `saveHabit`, run when the clock reads `now` milliseconds (`Date.now()`).
The second component is the alert shown, if any. -/
def saveHabit (now : Nat) (s : AppState) : AppState × Option AlertDialog :=
  if trim s.habitName = "" then
    (s, some { title := "Error", message := "Please enter a habit name", buttons := [] })
  else
    let s1 :=
      match s.editingHabit with
      | some editingHabit =>
        setHabits (fun prev =>
          prev.map (fun (h : Habit) =>
            if h.id = editingHabit.id
            then { h with name := s.habitName, description := s.habitDescription }
            else h)) s
      | none =>
        let newHabit : Habit :=
          { id := toString now, name := s.habitName,
            description := s.habitDescription, completed := false }
        setHabits (fun prev => prev ++ [newHabit]) s
    ({ s1 with showModal := false }, none)

/-- The function `deleteHabit`: the dialog it opens. -/
def deleteHabit (id : String) : AlertDialog :=
  { title := "Delete Habit"
    message := "Are you sure you want to delete this habit?"
    buttons :=
      [ { text := "Cancel", style := "cancel", onPress := none },
        { text := "Delete", style := "destructive",
          onPress := some (fun prev => prev.filter (fun (h : Habit) => h.id != id)) } ] }

/-- The function `resetDefaults`: the dialog it opens. -/
def resetDefaults : AlertDialog :=
  { title := "Reset to Defaults"
    message := "This will delete all your habits and restore default habits. Are you sure?"
    buttons :=
      [ { text := "Cancel", style := "cancel", onPress := none },
        { text := "Reset", style := "destructive",
          onPress := some (fun _ => INITIAL_HABITS) } ] }

/-! ## JavaScript numbers

The header computes `Math.round((completedCount / habits.length) * 100)` on JavaScript
numbers, that is IEEE-754 binary64 with round-to-nearest, ties-to-even. The values that occur
are quotients of two array lengths and their product with 100, all finite, non-negative and
in the normal range, so a value is kept as `mant * 2 ^ expo` and every operation rounds the
exact rational result to 53 significant bits. -/

/-- A finite non-negative binary64 value, `mant * 2 ^ expo`. -/
structure Double where
  mant : Nat
  expo : Int
  deriving DecidableEq, Repr

/-- The integer nearest to `x / y`, a tie going to the even one. -/
def roundHalfEven (x y : Nat) : Nat :=
  let q := x / y
  let r := x % y
  if 2 * r < y then q
  else if y < 2 * r then q + 1
  else if q % 2 = 0 then q else q + 1

/-- Worker of `log2Floor`; `fuel` bounds the number of halvings. -/
def log2FloorAux : Nat → Nat → Nat
  | 0, _ => 0
  | fuel + 1, n => if n < 2 then 0 else log2FloorAux fuel (n / 2) + 1

/-- The position of the leading bit, `⌊log₂ n⌋` (and `0` for `n = 0`). -/
def log2Floor (n : Nat) : Nat := log2FloorAux n n

/-- The binary64 value nearest to the positive rational `num / den` (ties to even): with
`e0 = ⌊log₂ (num / den)⌋` the quotient is scaled by `2 ^ (52 - e0)` into `[2 ^ 52, 2 ^ 53)`
and rounded to an integer. Exponent range (subnormals, overflow) is not modelled. -/
def roundToDouble (num den : Nat) : Double :=
  if num = 0 then { mant := 0, expo := 0 }
  else
    let d : Int := (log2Floor num : Int) - (log2Floor den : Int)
    let e0 : Int := if den * 2 ^ log2Floor num ≤ num * 2 ^ log2Floor den then d else d - 1
    let s : Int := 52 - e0
    { mant := roundHalfEven (num * 2 ^ s.toNat) (den * 2 ^ (-s).toNat), expo := -s }

/-- The number value of an array length or small integer literal (exact below `2 ^ 53`). -/
def Double.ofNat (n : Nat) : Double := { mant := n, expo := 0 }

/-- The operator `/` on numbers (divisor not zero). -/
def Double.div (x y : Double) : Double :=
  let e : Int := x.expo - y.expo
  roundToDouble (x.mant * 2 ^ e.toNat) (y.mant * 2 ^ (-e).toNat)

/-- The operator `*` on numbers. -/
def Double.mul (x y : Double) : Double :=
  let e : Int := x.expo + y.expo
  roundToDouble (x.mant * y.mant * 2 ^ e.toNat) (2 ^ (-e).toNat)

/-- The function `Math.round`: the integer nearest to `x`, a tie going up, `⌊x + 1/2⌋`. -/
def mathRound (x : Double) : Nat :=
  (2 * x.mant * 2 ^ x.expo.toNat + 2 ^ (-x.expo).toNat) / (2 * 2 ^ (-x.expo).toNat)

/-- The rational number a `Double` stands for. -/
def Double.toRat (x : Double) : ℚ := (x.mant : ℚ) * (2 : ℚ) ^ x.expo

/-! ## Derived header values -/

/-- The value `completedCount`. -/
def completedCount (habits : List Habit) : Nat :=
  (habits.filter (fun (h : Habit) => h.completed)).length

/-- The expression `Math.round((completedCount / habits.length) * 100)` on the numbers
`c` and `n`. -/
def percentOf (c n : Nat) : Nat :=
  mathRound (Double.mul (Double.div (Double.ofNat c) (Double.ofNat n)) (Double.ofNat 100))

/-- The value `percentage`. -/
def percentage (habits : List Habit) : Nat :=
  if habits.length > 0 then percentOf (completedCount habits) habits.length else 0

/-- The header line `{completedCount} / {habits.length} completed ({percentage}%)`. -/
def progress (habits : List Habit) : Nat × Nat × Nat :=
  (completedCount habits, habits.length, percentage habits)

/-! ## The claimed values, as the specification words them -/

/-- The percentage as the specification words it: `round(100 * countCompleted / total)`,
and `0` when `total = 0`. -/
def specPercentage (countCompleted total : Nat) : Int :=
  if total = 0 then 0 else round ((100 * (countCompleted : ℚ)) / (total : ℚ))

/-- The default habit set as the specification lists it. -/
def specDefaults : List Habit :=
  [ { id := "1", name := "Drink Water", description := "Drink 8 glasses", completed := false },
    { id := "2", name := "Exercise", description := "30 minutes workout", completed := false },
    { id := "3", name := "Read", description := "Read for 20 minutes", completed := false },
    { id := "4", name := "Meditate", description := "10 minutes meditation", completed := false },
    { id := "5", name := "Eat Healthy", description := "Include vegetables", completed := false },
    { id := "6", name := "School Assignments",
      description := "Complete class works or assignments", completed := false } ]

/-! ## A platform kept in memory

An instance of `Platform` on which the persistence functions can be run: the store is the
value of the single key, and snapshots are written as JSON text of the fixed shape
`{"habits":[{"id":…,"name":…,"description":…,"completed":…},…],"date":…}`. -/

/-- The body of a JSON string literal: `"` and `\` get a backslash. -/
def escapeChars : List Char → List Char
  | [] => []
  | c :: cs => if c = '"' ∨ c = '\\' then '\\' :: c :: escapeChars cs else c :: escapeChars cs

/-- A JSON string literal. -/
def quoteString (s : String) : List Char := '"' :: (escapeChars s.data ++ ['"'])

/-- A JSON boolean. -/
def encodeBool (b : Bool) : List Char := if b then "true".data else "false".data

/-- One habit as a JSON object. -/
def encodeHabit (h : Habit) : List Char :=
  "\x7b\"id\":".data ++ quoteString h.id ++ ",\"name\":".data ++ quoteString h.name ++
  ",\"description\":".data ++ quoteString h.description ++ ",\"completed\":".data ++
  encodeBool h.completed ++ "\x7d".data

/-- The habits as the elements of a JSON array, comma separated. -/
def encodeHabits : List Habit → List Char
  | [] => []
  | [h] => encodeHabit h
  | h :: hs => encodeHabit h ++ (',' :: encodeHabits hs)

/-- A snapshot as JSON text. -/
def encodeSnapshot (snap : Snapshot) : String :=
  String.mk ("\x7b\"habits\":[".data ++ encodeHabits snap.habits ++ "],\"date\":".data ++
    quoteString snap.date ++ "\x7d".data)

/-- Reads the literal `lit` off the front of the input. -/
def expectChars : List Char → List Char → Option (List Char)
  | [], input => some input
  | _ :: _, [] => none
  | l :: lit, c :: input => if l = c then expectChars lit input else none

/-- Reads the body of a string literal up to its closing quote; `escaped` says that the
character before was a backslash. -/
def readChars : Bool → List Char → Option (List Char × List Char)
  | _, [] => none
  | true, c :: rest => (readChars false rest).map (fun r => (c :: r.1, r.2))
  | false, c :: rest =>
    if c = '"' then some ([], rest)
    else if c = '\\' then readChars true rest
    else (readChars false rest).map (fun r => (c :: r.1, r.2))

/-- Reads a string literal. -/
def readString (input : List Char) : Option (String × List Char) :=
  match input with
  | '"' :: rest => (readChars false rest).map (fun r => (String.mk r.1, r.2))
  | _ => none

/-- Reads `true` or `false`. -/
def readBool (input : List Char) : Option (Bool × List Char) :=
  match expectChars "true".data input with
  | some rest => some (true, rest)
  | none => (expectChars "false".data input).map (fun rest => (false, rest))

/-- Reads one habit object. -/
def readHabit (input : List Char) : Option (Habit × List Char) := do
  let r ← expectChars "\x7b\"id\":".data input
  let (id, r) ← readString r
  let r ← expectChars ",\"name\":".data r
  let (name, r) ← readString r
  let r ← expectChars ",\"description\":".data r
  let (description, r) ← readString r
  let r ← expectChars ",\"completed\":".data r
  let (completed, r) ← readBool r
  let r ← expectChars "\x7d".data r
  pure ({ id := id, name := name, description := description, completed := completed }, r)

/-- Reads the elements of the array and its closing bracket; `fuel` bounds their number. -/
def readHabits : Nat → List Char → Option (List Habit × List Char)
  | 0, _ => none
  | fuel + 1, input =>
    match input with
    | ']' :: rest => some ([], rest)
    | _ =>
      match readHabit input with
      | none => none
      | some (h, rest) =>
        match rest with
        | ',' :: rest' => (readHabits fuel rest').map (fun r => (h :: r.1, r.2))
        | ']' :: rest' => some ([h], rest')
        | _ => none

/-- Reads a snapshot from JSON text of the shape `encodeSnapshot` writes. -/
def decodeSnapshot (raw : String) : Except String Snapshot :=
  let result : Option Snapshot := do
    let r ← expectChars "\x7b\"habits\":[".data raw.data
    let (habits, r) ← readHabits (r.length + 1) r
    let r ← expectChars ",\"date\":".data r
    let (date, r) ← readString r
    let r ← expectChars "\x7d".data r
    if r = [] then pure { habits := habits, date := date } else none
  match result with
  | some snap => .ok snap
  | none => .error "SyntaxError"

/-- The platform kept in memory: the store holds the value of `STORAGE_KEY`, if any. -/
def memoryPlatform : Platform (Option String) where
  getItem store key := .ok (if key = STORAGE_KEY then store else none)
  setItem store key value := .ok (if key = STORAGE_KEY then some value else store)
  stringify := encodeSnapshot
  parse := decodeSnapshot

/-! ## Sample inputs -/

/-- Two habits, the first completed. -/
def sampleHabits : List Habit :=
  [ { id := "1", name := "💧 Drink Water", description := "Drink 8 glasses", completed := true },
    { id := "1700000000000", name := "Floss", description := "", completed := false } ]

/-- The store of the platform kept in memory after `sampleHabits` was saved on
`Tue Nov 03 2026`. -/
def sampleStore : Option String :=
  some (encodeSnapshot { habits := sampleHabits, date := "Tue Nov 03 2026" })

/-- The freshly mounted component after "+ Add Habit" was pressed and the name `Floss`
typed. -/
def flossForm : AppState :=
  { openAddHabit AppState.initial with habitName := "Floss" }

/-- The component after `Floss` was added at clock reading `1700000000000`, "+ Add Habit"
pressed again and the name `Stretch` typed. -/
def stretchForm : AppState :=
  { openAddHabit (saveHabit 1700000000000 flossForm).1 with habitName := "Stretch" }

/-- The freshly mounted component after the edit form of the default habit `2` was opened
and the name replaced by two blanks and a tab. -/
def blankEditForm : AppState :=
  { openEditHabit ⟨"2", "🏃 Exercise", "30 minutes workout", false⟩ AppState.initial with
    habitName := "  \t" }

/-- The freshly mounted component after the edit form of the default habit `2` was opened
and `Run` / `5 km` typed. -/
def runEditForm : AppState :=
  { openEditHabit ⟨"2", "🏃 Exercise", "30 minutes workout", false⟩ AppState.initial with
    habitName := "Run", habitDescription := "5 km" }

/-- A list of 40 habits with the ids `1` to `40`, the first 23 of them completed. -/
def fortyHabits : List Habit :=
  (List.range 40).map (fun i =>
    { id := toString (i + 1), name := "Habit", description := "", completed := decide (i < 23) })

/-! ## The codec of the platform kept in memory -/

theorem expectChars_append (lit rest : List Char) : expectChars lit (lit ++ rest) = some rest := by
  induction lit with
  | nil => cases rest <;> rfl
  | cons l lit ih => simp [expectChars, ih]

theorem readChars_escapeChars (cs rest : List Char) :
    readChars false (escapeChars cs ++ '"' :: rest) = some (cs, rest) := by
  induction cs with
  | nil => simp [escapeChars, readChars]
  | cons c cs ih =>
    by_cases hc : c = '"' ∨ c = '\\'
    · have h1 : ('\\' : Char) ≠ '"' := by decide
      simp [escapeChars, hc, readChars, h1, ih]
    · have hq : c ≠ '"' := fun h => hc (Or.inl h)
      have hb : c ≠ '\\' := fun h => hc (Or.inr h)
      simp [escapeChars, hc, readChars, hq, hb, ih]

theorem readString_quoteString (s : String) (rest : List Char) :
    readString (quoteString s ++ rest) = some (s, rest) := by
  simp [readString, quoteString, readChars_escapeChars]

theorem readBool_encodeBool (b : Bool) (rest : List Char) :
    readBool (encodeBool b ++ rest) = some (b, rest) := by
  cases b
  · have h : expectChars "true".data ("false".data ++ rest) = none := by
      have hft : ('t' : Char) ≠ 'f' := by decide
      show expectChars ('t' :: _) ('f' :: _) = none
      simp [expectChars, hft]
    simp only [readBool, encodeBool, h, Bool.false_eq_true, if_false, expectChars_append,
      Option.map_some']
  · simp only [readBool, encodeBool, if_true, expectChars_append]

theorem readHabit_encodeHabit (h : Habit) (rest : List Char) :
    readHabit (encodeHabit h ++ rest) = some (h, rest) := by
  simp only [readHabit, encodeHabit, List.append_assoc, expectChars_append,
    readString_quoteString, readBool_encodeBool, Option.bind_eq_bind, Option.some_bind,
    Option.pure_def]

theorem encodeHabit_head (h : Habit) (rest : List Char) :
    ∃ tail, encodeHabit h ++ rest = '\x7b' :: tail := by
  unfold encodeHabit
  exact ⟨_, rfl⟩

theorem readHabits_encodeHabits (hs : List Habit) (fuel : Nat) (rest : List Char)
    (hfuel : hs.length < fuel) :
    readHabits fuel (encodeHabits hs ++ ']' :: rest) = some (hs, rest) := by
  induction hs generalizing fuel with
  | nil =>
    obtain ⟨fuel, rfl⟩ : ∃ k, fuel = k + 1 := ⟨fuel - 1, by simp at hfuel; omega⟩
    simp [encodeHabits, readHabits]
  | cons h hs ih =>
    obtain ⟨fuel, rfl⟩ : ∃ k, fuel = k + 1 := ⟨fuel - 1, by omega⟩
    have hbrace : ('\x7b' : Char) ≠ ']' := by decide
    cases hs with
    | nil =>
      obtain ⟨tail, htail⟩ := encodeHabit_head h (']' :: rest)
      have hread := readHabit_encodeHabit h (']' :: rest)
      simp only [encodeHabits]
      rw [htail] at hread ⊢
      simp [readHabits, hread]
    | cons h2 hs =>
      have hlen : (h2 :: hs).length < fuel := by simp at hfuel ⊢; omega
      have hrec := ih fuel hlen
      obtain ⟨tail, htail⟩ := encodeHabit_head h (',' :: (encodeHabits (h2 :: hs) ++ ']' :: rest))
      have hread := readHabit_encodeHabit h (',' :: (encodeHabits (h2 :: hs) ++ ']' :: rest))
      have henc : encodeHabits (h :: h2 :: hs) ++ ']' :: rest
          = encodeHabit h ++ ',' :: (encodeHabits (h2 :: hs) ++ ']' :: rest) := by
        simp [encodeHabits]
      rw [henc]
      rw [htail] at hread ⊢
      simp [readHabits, hread, hrec]

theorem length_le_encodeHabits (hs : List Habit) : hs.length ≤ (encodeHabits hs).length := by
  induction hs with
  | nil => simp
  | cons h hs ih =>
    cases hs with
    | nil =>
      obtain ⟨tail, htail⟩ := encodeHabit_head h []
      simp only [List.append_nil] at htail
      simp [encodeHabits, htail]
    | cons h2 hs =>
      simp only [encodeHabits, List.length_append, List.length_cons] at ih ⊢
      omega

/-- The codec of the platform kept in memory loses nothing: reading back what
`encodeSnapshot` wrote gives the snapshot. -/
theorem decodeSnapshot_encodeSnapshot (snap : Snapshot) :
    decodeSnapshot (encodeSnapshot snap) = .ok snap := by
  have key : ∀ rest : List Char,
      readHabits ((encodeHabits snap.habits ++ ']' :: rest).length + 1)
        (encodeHabits snap.habits ++ ']' :: rest) = some (snap.habits, rest) := by
    intro rest
    apply readHabits_encodeHabits
    have := length_le_encodeHabits snap.habits
    simp only [List.length_append]
    omega
  have hhab : ∀ tail : List Char,
      readHabits ((encodeHabits snap.habits ++ ("],\"date\":".data ++ tail)).length + 1)
        (encodeHabits snap.habits ++ ("],\"date\":".data ++ tail))
        = some (snap.habits, ",\"date\":".data ++ tail) := fun tail => key _
  have hend : expectChars "\x7d".data "\x7d".data = some [] := rfl
  simp only [List.append_assoc] at hhab hend
  simp only [decodeSnapshot, encodeSnapshot, List.append_assoc, expectChars_append,
    Option.bind_eq_bind, Option.some_bind, hhab, readString_quoteString, hend]
  simp

/-! ## Helper lemmas -/

theorem dropWhile_eq_nil_of_all {α : Type} (p : α → Bool) (l : List α)
    (h : ∀ x ∈ List.dropWhile p l, p x = true) : List.dropWhile p l = [] := by
  induction l with
  | nil => rfl
  | cons a l ih =>
    by_cases ha : p a = true
    · simp only [List.dropWhile_cons_of_pos ha] at h ⊢
      exact ih h
    · have hd : List.dropWhile p (a :: l) = a :: l := List.dropWhile_cons_of_neg ha
      rw [hd] at h
      exact absurd (h a (List.mem_cons_self a l)) ha

/-- The trimmed name is empty exactly when every character of the name is one that
`trim` strips. -/
theorem trim_eq_empty_iff (s : String) :
    trim s = "" ↔ ∀ c ∈ s.data, isTrimChar c = true := by
  have hmk : ∀ l : List Char, String.mk l = "" ↔ l = [] := by
    intro l
    constructor
    · intro h
      have := congrArg String.data h
      simpa using this
    · rintro rfl
      rfl
  unfold trim
  rw [hmk, List.reverse_eq_nil_iff, List.dropWhile_eq_nil_iff]
  constructor
  · intro h
    have hnil : List.dropWhile isTrimChar s.data = [] :=
      dropWhile_eq_nil_of_all _ _ (fun x hx => h x (List.mem_reverse.mpr hx))
    exact List.dropWhile_eq_nil_iff.mp hnil
  · intro h x hx
    have hx2 : x ∈ List.dropWhile isTrimChar s.data := List.mem_reverse.mp hx
    exact h x ((List.dropWhile_sublist _).subset hx2)

theorem saveHabit_of_blank (now : Nat) (s : AppState) (h : trim s.habitName = "") :
    saveHabit now s
      = (s, some { title := "Error", message := "Please enter a habit name", buttons := [] }) := by
  simp [saveHabit, h]

theorem saveHabit_add_habits (now : Nat) (s : AppState) (hadd : s.editingHabit = none)
    (hname : trim s.habitName ≠ "") :
    (saveHabit now s).1.habits
      = s.habits ++ [{ id := toString now, name := s.habitName,
                       description := s.habitDescription, completed := false }] := by
  simp [saveHabit, hname, hadd, setHabits]

theorem saveHabit_edit_habits (now : Nat) (s : AppState) (e : Habit)
    (hedit : s.editingHabit = some e) (hname : trim s.habitName ≠ "") :
    (saveHabit now s).1.habits
      = s.habits.map (fun (h : Habit) =>
          if h.id = e.id then { h with name := s.habitName, description := s.habitDescription }
          else h) := by
  simp [saveHabit, hname, hedit, setHabits]

theorem press_deleteHabit (id : String) (s : AppState) :
    ((deleteHabit id).press "Delete" s).habits
      = s.habits.filter (fun (h : Habit) => h.id != id) := by
  rfl

theorem press_resetDefaults (s : AppState) :
    (resetDefaults.press "Reset" s).habits = INITIAL_HABITS := by
  rfl

/-! ## Persistence: daily reset and round trip -/

/-- C1. Daily reset on load: when the store holds a snapshot `{habits, date}` whose `date`
differs from today, `loadHabits` hands the state a list of the same length in which the
record at every position has `completed = false` and the `id`, `name` and `description` of
the stored record at that position. -/
theorem loadHabits_resets_on_new_day {σ : Type} (P : Platform σ) (store : σ) (raw : String)
    (savedHabits : List Habit) (savedDate today : String) (current : List Habit)
    (hget : P.getItem store STORAGE_KEY = .ok (some raw))
    (hparse : P.parse raw = .ok { habits := savedHabits, date := savedDate })
    (hday : savedDate ≠ today) :
    (loadHabits P store today current).length = savedHabits.length ∧
    ∀ (i : Nat) (h : Habit), savedHabits[i]? = some h →
      ∃ r : Habit, (loadHabits P store today current)[i]? = some r ∧
        r.completed = false ∧ r.id = h.id ∧ r.name = h.name ∧
        r.description = h.description := by
  have hload : loadHabits P store today current
      = savedHabits.map (fun (habit : Habit) => { habit with completed := false }) := by
    simp [loadHabits, hget, hparse, hday]
  rw [hload]
  refine ⟨List.length_map _ _, ?_⟩
  intro i h hi
  exact ⟨{ h with completed := false }, by simp [List.getElem?_map, hi], rfl, rfl, rfl, rfl⟩

/-- C1, at a concrete input: a snapshot of two habits saved the day before, one of them
completed, loaded through the platform kept in memory. -/
theorem loadHabits_resets_on_new_day_witness :
    (loadHabits memoryPlatform sampleStore "Wed Nov 04 2026" INITIAL_HABITS).length
      = sampleHabits.length ∧
    ∀ (i : Nat) (h : Habit), sampleHabits[i]? = some h →
      ∃ r : Habit,
        (loadHabits memoryPlatform sampleStore "Wed Nov 04 2026" INITIAL_HABITS)[i]? = some r ∧
        r.completed = false ∧ r.id = h.id ∧ r.name = h.name ∧
        r.description = h.description :=
  loadHabits_resets_on_new_day memoryPlatform sampleStore
    (encodeSnapshot { habits := sampleHabits, date := "Tue Nov 03 2026" })
    sampleHabits "Tue Nov 03 2026" "Wed Nov 04 2026" INITIAL_HABITS rfl
    (decodeSnapshot_encodeSnapshot { habits := sampleHabits, date := "Tue Nov 03 2026" })
    (by decide)

/-- C2. Save/load round trip on the same day: when the write of `saveHabits` succeeds, the
store returns what was written and the codec reads back the snapshot it wrote, loading on
the day of the save yields exactly the saved habit list, `completed` flags included. -/
theorem loadHabits_saveHabits_same_day {σ : Type} (P : Platform σ) (store written : σ)
    (h : List Habit) (d : String) (current : List Habit)
    (hset : P.setItem store STORAGE_KEY (P.stringify { habits := h, date := d }) = .ok written)
    (hget : P.getItem written STORAGE_KEY
      = .ok (some (P.stringify { habits := h, date := d })))
    (hparse : P.parse (P.stringify { habits := h, date := d })
      = .ok { habits := h, date := d }) :
    loadHabits P (saveHabits P store d h) d current = h := by
  have hsave : saveHabits P store d h = written := by
    simp [saveHabits, hset]
  simp [hsave, loadHabits, hget, hparse]

/-- C2, at a concrete input: the sample list saved and loaded on the same day through the
platform kept in memory, starting from an empty store. -/
theorem loadHabits_saveHabits_same_day_witness :
    loadHabits memoryPlatform (saveHabits memoryPlatform none "Wed Nov 04 2026" sampleHabits)
      "Wed Nov 04 2026" INITIAL_HABITS = sampleHabits :=
  loadHabits_saveHabits_same_day memoryPlatform none
    (some (encodeSnapshot { habits := sampleHabits, date := "Wed Nov 04 2026" }))
    sampleHabits "Wed Nov 04 2026" INITIAL_HABITS rfl rfl
    (decodeSnapshot_encodeSnapshot { habits := sampleHabits, date := "Wed Nov 04 2026" })

/-! ## Add -/

/-- C3. Add: with no habit being edited and a name that is non-empty after trimming,
`saveHabit` yields a list one longer than before, whose records before the last are the
previous records in order, and whose last record has the entered name and description and
`completed = false`. -/
theorem saveHabit_add_appends (now : Nat) (s : AppState) (hadd : s.editingHabit = none)
    (hname : trim s.habitName ≠ "") :
    (saveHabit now s).1.habits.length = s.habits.length + 1 ∧
    (saveHabit now s).1.habits.dropLast = s.habits ∧
    ∃ r : Habit, (saveHabit now s).1.habits.getLast? = some r ∧
      r.name = s.habitName ∧ r.description = s.habitDescription ∧ r.completed = false := by
  rw [saveHabit_add_habits now s hadd hname]
  exact ⟨by simp, by simp,
    ⟨⟨toString now, s.habitName, s.habitDescription, false⟩, by simp, rfl, rfl, rfl⟩⟩

/-- C3, at a concrete input: the scenario `add("Floss", "")` on the default list. -/
theorem saveHabit_add_appends_witness :
    (saveHabit 1700000000000 flossForm).1.habits.length = INITIAL_HABITS.length + 1 ∧
    (saveHabit 1700000000000 flossForm).1.habits.dropLast = INITIAL_HABITS ∧
    ∃ r : Habit, (saveHabit 1700000000000 flossForm).1.habits.getLast? = some r ∧
      r.name = "Floss" ∧ r.description = "" ∧ r.completed = false :=
  saveHabit_add_appends 1700000000000 flossForm rfl (by decide)

/-- C4, amended. When the ids of the list are pairwise distinct and the decimal string of
the clock reading is not the id of a record of the list, the record `saveHabit` appends on
add has that string as id, it differs from the id of every record already in the list, and
the ids of the resulting list are again pairwise distinct. -/
theorem saveHabit_add_keeps_ids_distinct (now : Nat) (s : AppState)
    (hadd : s.editingHabit = none) (hname : trim s.habitName ≠ "")
    (hdistinct : (s.habits.map Habit.id).Nodup)
    (hfresh : toString now ∉ s.habits.map Habit.id) :
    (∃ r : Habit, (saveHabit now s).1.habits = s.habits ++ [r] ∧ r.id = toString now ∧
      ∀ h ∈ s.habits, h.id ≠ r.id) ∧
    ((saveHabit now s).1.habits.map Habit.id).Nodup := by
  rw [saveHabit_add_habits now s hadd hname]
  refine ⟨⟨_, rfl, rfl, ?_⟩, ?_⟩
  · intro h hh heq
    exact hfresh (List.mem_map.mpr ⟨h, hh, heq⟩)
  · rw [List.map_append, List.nodup_append]
    refine ⟨hdistinct, by simp, ?_⟩
    intro a ha hb
    simp only [List.map_cons, List.map_nil, List.mem_singleton] at hb
    exact hfresh (hb ▸ ha)

/-- C4 amended, at a concrete input: adding "Floss" to the default list. -/
theorem saveHabit_add_keeps_ids_distinct_witness :
    (∃ r : Habit, (saveHabit 1700000000000 flossForm).1.habits = INITIAL_HABITS ++ [r] ∧
      r.id = toString 1700000000000 ∧ ∀ h ∈ INITIAL_HABITS, h.id ≠ r.id) ∧
    ((saveHabit 1700000000000 flossForm).1.habits.map Habit.id).Nodup :=
  saveHabit_add_keeps_ids_distinct 1700000000000 flossForm rfl (by decide) (by decide)
    (by decide)

/-- C4 as stated fails: two adds while the clock reads the same millisecond. The first
leaves a list with pairwise distinct ids; the second, with a valid name, appends a record
with the id of the first, and the ids are no longer pairwise distinct. -/
theorem saveHabit_add_same_clock_duplicates_id :
    stretchForm.editingHabit = none ∧ trim stretchForm.habitName ≠ "" ∧
    (stretchForm.habits.map Habit.id).Nodup ∧
    ¬ ((saveHabit 1700000000000 stretchForm).1.habits.map Habit.id).Nodup := by
  decide

/-! ## Validation -/

/-- C5. Validation is atomic: when the entered name is empty or consists only of characters
that `trim` strips, `saveHabit` reports the error alert and leaves the state, and so the
habit list, exactly as it was, whether a habit is being edited or not. -/
theorem saveHabit_blank_name_rejected (now : Nat) (s : AppState)
    (hblank : ∀ c ∈ s.habitName.data, isTrimChar c = true) :
    (saveHabit now s).1 = s ∧ (saveHabit now s).1.habits = s.habits ∧
    ∃ alert : AlertDialog, (saveHabit now s).2 = some alert ∧ alert.title = "Error" ∧
      alert.message = "Please enter a habit name" := by
  rw [saveHabit_of_blank now s ((trim_eq_empty_iff _).mpr hblank)]
  exact ⟨rfl, rfl, _, rfl, rfl, rfl⟩

/-- C5, at a concrete input: a name of two blanks and a tab while the default habit `2` is
being edited. -/
theorem saveHabit_blank_name_rejected_witness :
    (saveHabit 1700000000000 blankEditForm).1 = blankEditForm ∧
    (saveHabit 1700000000000 blankEditForm).1.habits = blankEditForm.habits ∧
    ∃ alert : AlertDialog, (saveHabit 1700000000000 blankEditForm).2 = some alert ∧
      alert.title = "Error" ∧ alert.message = "Please enter a habit name" :=
  saveHabit_blank_name_rejected 1700000000000 blankEditForm (by decide)

/-! ## Toggle, delete, reset -/

/-- C6. Toggle is an involution: for every state and every id, present in the list or not,
`toggleHabit id` applied twice gives back the original state, so every habit is back at
its original `completed` value. -/
theorem toggleHabit_involutive (id : String) (s : AppState) :
    toggleHabit id (toggleHabit id s) = s := by
  have hmap : ∀ l : List Habit,
      (l.map (fun (habit : Habit) =>
          if habit.id = id then { habit with completed := !habit.completed } else habit)).map
        (fun (habit : Habit) =>
          if habit.id = id then { habit with completed := !habit.completed } else habit) = l := by
    intro l
    rw [List.map_map]
    conv_rhs => rw [← List.map_id l]
    apply List.map_congr_left
    intro h _
    obtain ⟨hid0, hname0, hdesc0, hdone0⟩ := h
    by_cases hid : hid0 = id
    · simp [hid]
    · simp [hid]
  cases s
  simp only [toggleHabit, setHabits, hmap]

/-- C7. Delete is idempotent: after the confirmed delete of `id` no record of the list has
that id, a second confirmed delete of `id` leaves that state unchanged, and the confirmed
delete of an id no record has leaves the state unchanged. -/
theorem deleteHabit_idempotent (id : String) (s : AppState) :
    (∀ h ∈ ((deleteHabit id).press "Delete" s).habits, h.id ≠ id) ∧
    (deleteHabit id).press "Delete" ((deleteHabit id).press "Delete" s)
      = (deleteHabit id).press "Delete" s ∧
    ((∀ h ∈ s.habits, h.id ≠ id) → (deleteHabit id).press "Delete" s = s) := by
  have hpress : ∀ t : AppState, (deleteHabit id).press "Delete" t
      = { t with habits := t.habits.filter (fun (h : Habit) => h.id != id) } := fun _ => rfl
  refine ⟨?_, ?_, ?_⟩
  · intro h hh
    rw [press_deleteHabit] at hh
    simpa using (List.mem_filter.mp hh).2
  · rw [hpress, hpress]
    simp only [List.filter_filter, Bool.and_self]
  · intro habsent
    rw [hpress]
    have hfilter : s.habits.filter (fun (h : Habit) => h.id != id) = s.habits :=
      List.filter_eq_self.mpr (fun h hh => by simpa using habsent h hh)
    rw [hfilter]

/-- C7, at a concrete input: deleting the default habit `3` removes it, and on the default
list the delete of the id `42`, which no record has, changes nothing. -/
theorem deleteHabit_idempotent_witness :
    (((deleteHabit "3").press "Delete" AppState.initial).habits.map Habit.id
      = ["1", "2", "4", "5", "6"]) ∧
    (deleteHabit "42").press "Delete" AppState.initial = AppState.initial :=
  ⟨by decide, (deleteHabit_idempotent "42" AppState.initial).2.2 (by decide)⟩

/-- C8, amended. For every prior state the confirmed `resetDefaults` yields exactly the
list `INITIAL_HABITS`: six records with ids `1` to `6`, all `completed = false`, whose first
five names carry an emoji and a blank before the words the specification lists. -/
theorem resetDefaults_yields_defaults (s : AppState) :
    (resetDefaults.press "Reset" s).habits =
      [ ⟨"1", "💧 Drink Water", "Drink 8 glasses", false⟩,
        ⟨"2", "🏃 Exercise", "30 minutes workout", false⟩,
        ⟨"3", "📚 Read", "Read for 20 minutes", false⟩,
        ⟨"4", "🧘 Meditate", "10 minutes meditation", false⟩,
        ⟨"5", "🥗 Eat Healthy", "Include vegetables", false⟩,
        ⟨"6", "School Assignments", "Complete class works or assignments", false⟩ ] := by
  rw [press_resetDefaults]
  rfl

/-- C8 as stated fails: the list the confirmed `resetDefaults` yields is not the list with
the names `Drink Water`, `Exercise`, … the specification gives; the name of its first
record is `💧 Drink Water`. -/
theorem resetDefaults_names_differ_from_spec :
    (resetDefaults.press "Reset" AppState.initial).habits ≠ specDefaults ∧
    (resetDefaults.press "Reset" AppState.initial).habits.head?.map Habit.name
      = some "💧 Drink Water" ∧
    specDefaults.head?.map Habit.name = some "Drink Water" := by
  decide

/-! ## Edit -/

/-- C10. Edit changes only name and description: with the habit `e` being edited and a valid
name, `saveHabit` yields a list of the same length in which, position by position, a record
with the id of `e` has the entered name and description and its own id and `completed`
flag, and a record with another id is unchanged; when no record has the id of `e` the
list is unchanged. -/
theorem saveHabit_edit_frame (now : Nat) (s : AppState) (e : Habit)
    (hedit : s.editingHabit = some e) (hname : trim s.habitName ≠ "") :
    (saveHabit now s).1.habits.length = s.habits.length ∧
    (∀ (i : Nat) (h : Habit), s.habits[i]? = some h →
      (h.id = e.id → ∃ r : Habit, (saveHabit now s).1.habits[i]? = some r ∧
        r.name = s.habitName ∧ r.description = s.habitDescription ∧
        r.id = h.id ∧ r.completed = h.completed) ∧
      (h.id ≠ e.id → (saveHabit now s).1.habits[i]? = some h)) ∧
    ((∀ h ∈ s.habits, h.id ≠ e.id) → (saveHabit now s).1.habits = s.habits) := by
  rw [saveHabit_edit_habits now s e hedit hname]
  refine ⟨List.length_map _ _, ?_, ?_⟩
  · intro i h hi
    constructor
    · intro hid
      exact ⟨⟨h.id, s.habitName, s.habitDescription, h.completed⟩,
        by simp [List.getElem?_map, hi, hid], rfl, rfl, rfl, rfl⟩
    · intro hid
      simp [List.getElem?_map, hi, hid]
  · intro habsent
    conv_rhs => rw [← List.map_id s.habits]
    apply List.map_congr_left
    intro h hh
    simp [habsent h hh]

/-- C10, at a concrete input: the default habit `2` renamed to `Run` / `5 km`. -/
theorem saveHabit_edit_frame_witness :
    (saveHabit 1700000000000 runEditForm).1.habits.map Habit.name
      = ["💧 Drink Water", "Run", "📚 Read", "🧘 Meditate", "🥗 Eat Healthy",
         "School Assignments"] ∧
    (saveHabit 1700000000000 runEditForm).1.habits.length = runEditForm.habits.length :=
  ⟨by decide,
   (saveHabit_edit_frame 1700000000000 runEditForm
      ⟨"2", "🏃 Exercise", "30 minutes workout", false⟩ rfl (by decide)).1⟩

/-! ## The binary64 model -/

theorem log2FloorAux_spec (fuel n : Nat) (hn : 0 < n) (hfuel : n ≤ fuel) :
    2 ^ log2FloorAux fuel n ≤ n ∧ n < 2 ^ (log2FloorAux fuel n + 1) := by
  induction fuel generalizing n with
  | zero => omega
  | succ fuel ih =>
    by_cases h2 : n < 2
    · have h1 : n = 1 := by omega
      subst h1
      simp [log2FloorAux]
    · have hhalf : 0 < n / 2 := Nat.div_pos (by omega) (by norm_num)
      have hle : n / 2 ≤ fuel := by omega
      obtain ⟨hlo, hhi⟩ := ih (n / 2) hhalf hle
      simp only [log2FloorAux, if_neg h2]
      rw [pow_succ, pow_succ]
      constructor <;> omega

/-- The value `log2Floor n` is the position of the leading bit of `n`. -/
theorem log2Floor_spec (n : Nat) (hn : 0 < n) :
    2 ^ log2Floor n ≤ n ∧ n < 2 ^ (log2Floor n + 1) :=
  log2FloorAux_spec n n hn le_rfl

/-- The value `roundHalfEven x y` is an integer nearest to `x / y`. -/
theorem roundHalfEven_spec (x y : Nat) (hy : 0 < y) :
    2 * y * roundHalfEven x y ≤ 2 * x + y ∧ 2 * x ≤ 2 * y * roundHalfEven x y + y := by
  have hq : x = y * (x / y) + x % y := (Nat.div_add_mod x y).symm
  have hmod := Nat.mod_lt x hy
  unfold roundHalfEven
  simp only
  generalize x / y = q at hq ⊢
  generalize x % y = r at hq hmod ⊢
  subst hq
  split_ifs with h1 h2 h3
  · constructor <;> nlinarith
  · constructor <;> nlinarith
  · constructor <;> nlinarith
  · constructor <;> nlinarith

theorem two_zpow_split (s : Int) :
    (2 : ℚ) ^ s = (2 : ℚ) ^ s.toNat / (2 : ℚ) ^ (-s).toNat := by
  rcases le_total 0 s with hs | hs
  · obtain ⟨n, rfl⟩ := Int.eq_ofNat_of_zero_le hs
    have h0 : (-(n : Int)).toNat = 0 := by omega
    simp [h0]
  · obtain ⟨n, hn⟩ := Int.eq_ofNat_of_zero_le (neg_nonneg.mpr hs)
    have hsn : s = -(n : Int) := by omega
    subst hsn
    have h0 : (-(n : Int)).toNat = 0 := by omega
    simp [h0]

/-- The exponent `roundToDouble` picks is the binade of the quotient:
`2 ^ e0 ≤ num / den < 2 ^ (e0 + 1)`. -/
theorem quotient_binade (num den : Nat) (hnum : 0 < num) (hden : 0 < den) (e0 : Int)
    (he0 : e0 = if den * 2 ^ log2Floor num ≤ num * 2 ^ log2Floor den
      then (log2Floor num : Int) - (log2Floor den : Int)
      else (log2Floor num : Int) - (log2Floor den : Int) - 1) :
    (2 : ℚ) ^ e0 ≤ (num : ℚ) / den ∧ (num : ℚ) / den < (2 : ℚ) ^ (e0 + 1) := by
  obtain ⟨hnlo, hnhi⟩ := log2Floor_spec num hnum
  obtain ⟨hdlo, hdhi⟩ := log2Floor_spec den hden
  have hdenq : (0 : ℚ) < den := by exact_mod_cast hden
  have hnlo' : (2 : ℚ) ^ log2Floor num ≤ num := by exact_mod_cast hnlo
  have hnhi' : (num : ℚ) < 2 ^ (log2Floor num + 1) := by exact_mod_cast hnhi
  have hdlo' : (2 : ℚ) ^ log2Floor den ≤ den := by exact_mod_cast hdlo
  have hdhi' : (den : ℚ) < 2 ^ (log2Floor den + 1) := by exact_mod_cast hdhi
  have hL : (0 : ℚ) < 2 ^ log2Floor num := by positivity
  have hM : (0 : ℚ) < 2 ^ log2Floor den := by positivity
  have h2 : (2 : ℚ) ≠ 0 := by norm_num
  have hsub : (2 : ℚ) ^ ((log2Floor num : Int) - (log2Floor den : Int))
      = (2 : ℚ) ^ log2Floor num / (2 : ℚ) ^ log2Floor den := by
    rw [zpow_sub₀ h2, zpow_natCast, zpow_natCast]
  split_ifs at he0 with hc
  · subst he0
    have hc' : (den : ℚ) * 2 ^ log2Floor num ≤ num * 2 ^ log2Floor den := by exact_mod_cast hc
    constructor
    · rw [hsub, div_le_div_iff₀ hM hdenq]
      linarith
    · rw [zpow_add_one₀ h2, hsub, div_lt_iff₀ hdenq]
      rw [pow_succ] at hnhi'
      have : (2 : ℚ) ^ log2Floor num / 2 ^ log2Floor den * 2 * den
          = 2 ^ log2Floor num * 2 * (den / 2 ^ log2Floor den) := by
        field_simp
      rw [this]
      have hone : (1 : ℚ) ≤ den / 2 ^ log2Floor den := by
        rw [le_div_iff₀ hM]
        linarith
      nlinarith
  · subst he0
    have hc' : (num : ℚ) * 2 ^ log2Floor den < den * 2 ^ log2Floor num := by
      exact_mod_cast not_le.mp hc
    constructor
    · rw [zpow_sub_one₀ h2, hsub, le_div_iff₀ hdenq]
      rw [pow_succ] at hdhi'
      have : (2 : ℚ) ^ log2Floor num / 2 ^ log2Floor den * 2⁻¹ * den
          = 2 ^ log2Floor num * (den / (2 ^ log2Floor den * 2)) := by
        field_simp
      rw [this]
      have hone : (den : ℚ) / (2 ^ log2Floor den * 2) ≤ 1 := by
        rw [div_le_iff₀ (by positivity)]
        linarith
      nlinarith
    · rw [sub_add_cancel, hsub, div_lt_div_iff₀ hdenq hM]
      linarith

/-- The value `roundToDouble num den` is correctly rounded: its significand has 53 bits
(`2 ^ 52 ≤ mant ≤ 2 ^ 53`) and it lies within half a unit in the last place of the exact
quotient `num / den`. -/
theorem roundToDouble_spec (num den : Nat) (hnum : 0 < num) (hden : 0 < den) :
    2 ^ 52 ≤ (roundToDouble num den).mant ∧ (roundToDouble num den).mant ≤ 2 ^ 53 ∧
    |(roundToDouble num den).toRat - (num : ℚ) / den|
      ≤ (2 : ℚ) ^ (roundToDouble num den).expo / 2 := by
  obtain ⟨e0, he0⟩ : ∃ e0 : Int, e0 = if den * 2 ^ log2Floor num ≤ num * 2 ^ log2Floor den
      then (log2Floor num : Int) - (log2Floor den : Int)
      else (log2Floor num : Int) - (log2Floor den : Int) - 1 := ⟨_, rfl⟩
  obtain ⟨hqlo, hqhi⟩ := quotient_binade num den hnum hden e0 he0
  have hdef : roundToDouble num den
      = { mant := roundHalfEven (num * 2 ^ (52 - e0).toNat) (den * 2 ^ (-(52 - e0)).toNat),
          expo := -(52 - e0) } := by
    simp only [roundToDouble, if_neg hnum.ne', he0]
  rw [hdef]
  simp only [Double.toRat]
  generalize hs : 52 - e0 = s at *
  have he : e0 = 52 - s := by omega
  subst he
  set X : Nat := num * 2 ^ s.toNat with hX
  set Y : Nat := den * 2 ^ (-s).toNat with hY
  have hYpos : 0 < Y := Nat.mul_pos hden (by positivity)
  obtain ⟨hr1, hr2⟩ := roundHalfEven_spec X Y hYpos
  set m : Nat := roundHalfEven X Y with hm
  have h2 : (2 : ℚ) ≠ 0 := by norm_num
  have hdenq : (0 : ℚ) < den := by exact_mod_cast hden
  have hYq : (0 : ℚ) < Y := by exact_mod_cast hYpos
  have hspos : (0 : ℚ) < (2 : ℚ) ^ s := by positivity
  -- the scaled quotient
  have hXY : (X : ℚ) / Y = (num : ℚ) / den * (2 : ℚ) ^ s := by
    rw [two_zpow_split s, hX, hY]
    push_cast
    field_simp
  have hlo : (2 : ℚ) ^ 52 ≤ (X : ℚ) / Y := by
    rw [hXY]
    have : (2 : ℚ) ^ (52 : Int) = (2 : ℚ) ^ (52 - s) * (2 : ℚ) ^ s := by
      rw [← zpow_add₀ h2]
      congr 1
      omega
    have h52 : (2 : ℚ) ^ (52 : Int) = (2 : ℚ) ^ 52 := by norm_cast
    rw [← h52, this]
    exact mul_le_mul_of_nonneg_right hqlo hspos.le
  have hhi : (X : ℚ) / Y < (2 : ℚ) ^ 53 := by
    rw [hXY]
    have : (2 : ℚ) ^ (53 : Int) = (2 : ℚ) ^ (52 - s + 1) * (2 : ℚ) ^ s := by
      rw [← zpow_add₀ h2]
      congr 1
      omega
    have h53 : (2 : ℚ) ^ (53 : Int) = (2 : ℚ) ^ 53 := by norm_cast
    rw [← h53, this]
    exact mul_lt_mul_of_pos_right hqhi hspos
  have hloN : 2 ^ 52 * Y ≤ X := by
    have := (le_div_iff₀ hYq).mp hlo
    exact_mod_cast this
  have hhiN : X < 2 ^ 53 * Y := by
    have := (div_lt_iff₀ hYq).mp hhi
    exact_mod_cast this
  refine ⟨?_, ?_, ?_⟩
  · by_contra hlt
    have hlt' : m + 1 ≤ 2 ^ 52 := by omega
    have : Y * (m + 1) ≤ Y * 2 ^ 52 := Nat.mul_le_mul_left Y hlt'
    nlinarith
  · by_contra hgt
    have hgt' : 2 ^ 53 + 1 ≤ m := by omega
    have : Y * (2 ^ 53 + 1) ≤ Y * m := Nat.mul_le_mul_left Y hgt'
    nlinarith
  · have hr1q : (2 : ℚ) * Y * m ≤ 2 * X + Y := by exact_mod_cast hr1
    have hr2q : (2 : ℚ) * X ≤ 2 * Y * m + Y := by exact_mod_cast hr2
    have hXeq : (X : ℚ) = (num : ℚ) / den * (2 : ℚ) ^ s * Y := by
      rw [← hXY]
      field_simp
    have habs : |(m : ℚ) - (num : ℚ) / den * (2 : ℚ) ^ s| ≤ 1 / 2 := by
      rw [abs_le]
      constructor <;> nlinarith
    have hneg : (2 : ℚ) ^ (-s) = ((2 : ℚ) ^ s)⁻¹ := zpow_neg 2 s
    have hfac : (m : ℚ) * (2 : ℚ) ^ (-s) - (num : ℚ) / den
        = ((m : ℚ) - (num : ℚ) / den * (2 : ℚ) ^ s) * (2 : ℚ) ^ (-s) := by
      rw [hneg]
      field_simp
      ring
    rw [hfac, abs_mul, abs_of_pos (by positivity : (0 : ℚ) < (2 : ℚ) ^ (-s))]
    have hnn : (0 : ℚ) ≤ (2 : ℚ) ^ (-s) := by positivity
    calc |(m : ℚ) - (num : ℚ) / den * (2 : ℚ) ^ s| * (2 : ℚ) ^ (-s)
        ≤ 1 / 2 * (2 : ℚ) ^ (-s) := mul_le_mul_of_nonneg_right habs hnn
      _ = (2 : ℚ) ^ (-s) / 2 := by ring

/-- The function `mathRound` is `⌊x + 1/2⌋`. -/
theorem mathRound_eq_floor (x : Double) : ((mathRound x : Nat) : Int) = ⌊x.toRat + 1 / 2⌋ := by
  have hval : x.toRat + 1 / 2
      = ((2 * x.mant * 2 ^ x.expo.toNat + 2 ^ (-x.expo).toNat : Nat) : ℚ)
        / ((2 * 2 ^ (-x.expo).toNat : Nat) : ℚ) := by
    unfold Double.toRat
    rw [two_zpow_split x.expo]
    push_cast
    field_simp
    ring
  rw [hval, Rat.floor_natCast_div_natCast]
  simp [mathRound]

/-- Relative form of `roundToDouble_spec`: the rounded value is off by at most
`2 ^ (-52)` times the exact quotient. -/
theorem roundToDouble_rel (num den : Nat) (hnum : 0 < num) (hden : 0 < den) :
    |(roundToDouble num den).toRat - (num : ℚ) / den| ≤ (num : ℚ) / den / 2 ^ 52 := by
  obtain ⟨hlo, _, habs⟩ := roundToDouble_spec num den hnum hden
  set r := roundToDouble num den with hr
  have hu : (0 : ℚ) < (2 : ℚ) ^ r.expo := by positivity
  have hm : (2 : ℚ) ^ 52 ≤ (r.mant : ℚ) := by exact_mod_cast hlo
  have hval : r.toRat = (r.mant : ℚ) * (2 : ℚ) ^ r.expo := rfl
  have hulp : (2 : ℚ) ^ r.expo * 2 ^ 52 ≤ r.toRat := by
    rw [hval]
    nlinarith
  obtain ⟨h1, h2⟩ := abs_le.mp habs
  -- the unit in the last place is at most `q / (2 ^ 52 - 1 / 2)`
  have hq : (2 : ℚ) ^ r.expo * (2 ^ 52 - 1 / 2) ≤ (num : ℚ) / den := by nlinarith
  have hbound : (2 : ℚ) ^ r.expo / 2 ≤ (num : ℚ) / den / 2 ^ 52 := by
    rw [le_div_iff₀ (by positivity)]
    nlinarith
  exact habs.trans hbound

/-- The double the header rounds, `(c / n) * 100`, is within `2 ^ (-43)` of `100 c / n`. -/
theorem percent_double_error (c n : Nat) (hc : 0 < c) (hcn : c ≤ n) :
    |(Double.mul (Double.div (Double.ofNat c) (Double.ofNat n)) (Double.ofNat 100)).toRat
        - 100 * (c : ℚ) / n| ≤ 1 / 2 ^ 43 := by
  have hn : 0 < n := lt_of_lt_of_le hc hcn
  have hnq : (0 : ℚ) < n := by exact_mod_cast hn
  have hcq : (0 : ℚ) < c := by exact_mod_cast hc
  have hdiv : Double.div (Double.ofNat c) (Double.ofNat n) = roundToDouble c n := by
    simp [Double.div, Double.ofNat]
  rw [hdiv]
  set d := roundToDouble c n with hd
  obtain ⟨hmlo, _, _⟩ := roundToDouble_spec c n hc hn
  have hrel := roundToDouble_rel c n hc hn
  rw [← hd] at hmlo hrel
  have hq1 : (c : ℚ) / n ≤ 1 := by
    rw [div_le_one hnq]
    exact_mod_cast hcn
  have hq0 : (0 : ℚ) < (c : ℚ) / n := by positivity
  have hmul : Double.mul d (Double.ofNat 100)
      = roundToDouble (d.mant * 100 * 2 ^ d.expo.toNat) (2 ^ (-d.expo).toNat) := by
    simp [Double.mul, Double.ofNat]
  rw [hmul]
  have hmpos : 0 < d.mant := lt_of_lt_of_le (by positivity) hmlo
  have hnum : 0 < d.mant * 100 * 2 ^ d.expo.toNat := by positivity
  have hden : 0 < 2 ^ (-d.expo).toNat := by positivity
  have hrel2 := roundToDouble_rel _ _ hnum hden
  have hexact : ((d.mant * 100 * 2 ^ d.expo.toNat : Nat) : ℚ) / ((2 ^ (-d.expo).toNat : Nat) : ℚ)
      = 100 * d.toRat := by
    unfold Double.toRat
    rw [two_zpow_split d.expo]
    push_cast
    field_simp
    ring
  rw [hexact] at hrel2
  obtain ⟨a1, a2⟩ := abs_le.mp hrel
  obtain ⟨b1, b2⟩ := abs_le.mp hrel2
  have hpow : (0 : ℚ) < 2 ^ 52 := by positivity
  have hqe : (c : ℚ) / n / 2 ^ 52 ≤ 1 / 2 ^ 52 := by
    apply div_le_div_of_nonneg_right hq1 hpow.le
  have hd2 : d.toRat ≤ 2 := by
    have : (1 : ℚ) / 2 ^ 52 ≤ 1 := by norm_num
    linarith
  have hd0 : 0 ≤ d.toRat := by
    have : (c : ℚ) / n / 2 ^ 52 ≤ (c : ℚ) / n := by
      apply div_le_self hq0.le
      norm_num
    linarith
  have hde : 100 * d.toRat / 2 ^ 52 ≤ 200 / 2 ^ 52 := by
    apply div_le_div_of_nonneg_right _ hpow.le
    linarith
  have hfin : (300 : ℚ) / 2 ^ 52 ≤ 1 / 2 ^ 43 := by norm_num
  have e1 : (200 : ℚ) / 2 ^ 52 + 100 * (1 / 2 ^ 52) = 300 / 2 ^ 52 := by ring
  have hsplit : 100 * (c : ℚ) / n = 100 * ((c : ℚ) / n) := by ring
  rw [hsplit, abs_le]
  constructor <;> linarith

theorem percentOf_zero (n : Nat) : percentOf 0 n = 0 := by
  simp [percentOf, Double.div, Double.mul, Double.ofNat, roundToDouble, mathRound]

/-- The rational the header rounds is within `2 ^ (-43)` of `100 c / n`, and the header
shows `⌊· + 1/2⌋` of it. -/
theorem percentOf_floor_bounds (c n : Nat) (hc : 0 < c) (hcn : c ≤ n) :
    ∃ p : ℚ, ((percentOf c n : Nat) : Int) = ⌊p + 1 / 2⌋ ∧
      |p - 100 * (c : ℚ) / n| ≤ 1 / 2 ^ 43 :=
  ⟨_, mathRound_eq_floor _, percent_double_error c n hc hcn⟩

/-- On a list shorter than `2 ^ 32` the displayed percentage is the specification's
`⌊(200 c + n) / (2 n)⌋` whenever `100 c / n` is not an integer plus one half. -/
theorem percentOf_eq_spec_of_not_tie (c n : Nat) (hcn : c ≤ n) (hn : 0 < n)
    (hsize : n < 2 ^ 32) (hnt : (200 * c + n) % (2 * n) ≠ 0) :
    percentOf c n = (200 * c + n) / (2 * n) := by
  rcases Nat.eq_zero_or_pos c with hc | hc
  · subst hc
    rw [percentOf_zero]
    symm
    apply Nat.div_eq_of_lt
    omega
  · obtain ⟨p, hfloor, herr⟩ := percentOf_floor_bounds c n hc hcn
    obtain ⟨e1, e2⟩ := abs_le.mp herr
    have hnq : (0 : ℚ) < n := by exact_mod_cast hn
    have hdm := Nat.div_add_mod (200 * c + n) (2 * n)
    have hmod := Nat.mod_lt (200 * c + n) (by omega : 0 < 2 * n)
    set k := (200 * c + n) / (2 * n) with hk
    set r := (200 * c + n) % (2 * n) with hr
    have hr1 : (1 : ℚ) ≤ r := by exact_mod_cast Nat.one_le_iff_ne_zero.mpr hnt
    have hr2 : (r : ℚ) + 1 ≤ 2 * n := by exact_mod_cast hmod
    have hdmq : (2 : ℚ) * n * k + r = 200 * c + n := by exact_mod_cast hdm
    have ht : 100 * (c : ℚ) / n + 1 / 2 = k + r / (2 * n) := by
      field_simp
      linear_combination (-(2 * (n : ℚ))) * hdmq
    have hsz : (2 : ℚ) * n ≤ 2 ^ 33 := by
      have : 2 * n ≤ 2 ^ 33 := by omega
      exact_mod_cast this
    have hstep : (1 : ℚ) / 2 ^ 33 ≤ 1 / (2 * n) :=
      one_div_le_one_div_of_le (by positivity) hsz
    have hlow : (1 : ℚ) / (2 * n) ≤ r / (2 * n) :=
      div_le_div_of_nonneg_right hr1 (by positivity)
    have hhigh : (r : ℚ) / (2 * n) ≤ 1 - 1 / (2 * n) := by
      rw [div_le_iff₀ (by positivity)]
      have : (1 - 1 / (2 * (n : ℚ))) * (2 * n) = 2 * n - 1 := by
        field_simp
      rw [this]
      linarith
    have hgap : (1 : ℚ) / 2 ^ 43 < 1 / 2 ^ 33 := by norm_num
    have hfl : ⌊p + 1 / 2⌋ = (k : Int) := by
      rw [Int.floor_eq_iff]
      push_cast
      constructor <;> linarith
    have : ((percentOf c n : Nat) : Int) = (k : Int) := hfloor.trans hfl
    exact_mod_cast this

/-- On a list shorter than `2 ^ 32` the displayed percentage is the specification's
`⌊(200 c + n) / (2 n)⌋` or one less. -/
theorem percentOf_near_spec (c n : Nat) (hcn : c ≤ n) (hn : 0 < n) (hsize : n < 2 ^ 32) :
    percentOf c n ≤ (200 * c + n) / (2 * n) ∧
    (200 * c + n) / (2 * n) ≤ percentOf c n + 1 := by
  by_cases hnt : (200 * c + n) % (2 * n) = 0
  · rcases Nat.eq_zero_or_pos c with hc | hc
    · subst hc
      have hzero : (200 * 0 + n) / (2 * n) = 0 := Nat.div_eq_of_lt (by omega)
      rw [percentOf_zero, hzero]
      omega
    · obtain ⟨p, hfloor, herr⟩ := percentOf_floor_bounds c n hc hcn
      obtain ⟨e1, e2⟩ := abs_le.mp herr
      have hnq : (0 : ℚ) < n := by exact_mod_cast hn
      have hdm := Nat.div_add_mod (200 * c + n) (2 * n)
      rw [hnt, Nat.add_zero] at hdm
      set k := (200 * c + n) / (2 * n) with hk
      have hdmq : (2 : ℚ) * n * k = 200 * c + n := by exact_mod_cast hdm
      have ht : 100 * (c : ℚ) / n + 1 / 2 = k := by
        field_simp
        linear_combination (-1 : ℚ) * hdmq
      have hsmall : (1 : ℚ) / 2 ^ 43 < 1 := by norm_num
      have hup : ⌊p + 1 / 2⌋ < (k : Int) + 1 := by
        rw [Int.floor_lt]
        push_cast
        linarith
      have hdown : (k : Int) - 1 ≤ ⌊p + 1 / 2⌋ := by
        rw [Int.le_floor]
        push_cast
        linarith
      rw [← hfloor] at hup hdown
      omega
  · rw [percentOf_eq_spec_of_not_tie c n hcn hn hsize hnt]
    omega

/-! ## Progress -/

/-- The specification's percentage in integer arithmetic: `⌊(200 c + n) / (2 n)⌋`. -/
theorem specPercentage_eq_div (c n : Nat) (hn : 0 < n) :
    specPercentage c n = (((200 * c + n) / (2 * n) : Nat) : Int) := by
  have hn0 : (n : ℚ) ≠ 0 := by exact_mod_cast hn.ne'
  have hrw : (100 * (c : ℚ)) / (n : ℚ) + 1 / 2
      = (((200 * c + n : Nat) : ℚ)) / (((2 * n : Nat)) : ℚ) := by
    push_cast
    field_simp
    ring
  unfold specPercentage
  rw [if_neg hn.ne', round_eq, hrw, Rat.floor_natCast_div_natCast]
  norm_cast

/-- The header counts the records with `completed = true` and the records of the list. -/
theorem progress_counts (habits : List Habit) :
    (progress habits).1 = habits.countP (fun (h : Habit) => h.completed) ∧
    (progress habits).2.1 = habits.length := by
  simp [progress, completedCount, List.countP_eq_length_filter]

/-- On the empty list the percentage is `0`. -/
theorem progress_nil : progress [] = (0, 0, 0) := by
  decide

/-- The scenario of the specification: the default list after toggle of id `1`. -/
theorem progress_defaults_toggle_one :
    progress (toggleHabit "1" AppState.initial).habits = (1, 6, 17) := by
  decide

/-- On every list of fewer than 40 records the displayed percentage is the one the
specification words. -/
theorem percentOf_eq_spec_below_40 :
    ∀ n : Fin 40, ∀ c : Fin 40, c.val ≤ n.val → 0 < n.val →
      percentOf c.val n.val = (200 * c.val + n.val) / (2 * n.val) := by
  decide!

/-- On every list of fewer than 40 records the displayed percentage is
`round(100 * countCompleted / total)`, as the specification words it. -/
theorem percentage_eq_spec_of_short (habits : List Habit) (hshort : habits.length < 40) :
    (percentage habits : Int) = specPercentage (completedCount habits) habits.length := by
  by_cases hn : habits.length = 0
  · simp [percentage, specPercentage, hn]
  · have hpos : 0 < habits.length := Nat.pos_of_ne_zero hn
    have hle : completedCount habits ≤ habits.length := List.length_filter_le _ _
    have hc : completedCount habits < 40 := lt_of_le_of_lt hle hshort
    have h := percentOf_eq_spec_below_40 ⟨habits.length, hshort⟩ ⟨completedCount habits, hc⟩
      hle hpos
    simp only at h
    rw [specPercentage_eq_div _ _ hpos, percentage, if_pos hpos, h]

/-- On every list with fewer than `2 ^ 32` records (the bound of a JavaScript array) the
displayed percentage is `round(100 * countCompleted / total)` whenever
`100 * countCompleted / total` is not an integer plus one half. -/
theorem percentage_eq_spec_of_not_tie (habits : List Habit) (hsize : habits.length < 2 ^ 32)
    (hnt : ∀ k : Int, 100 * (completedCount habits : ℚ) / habits.length ≠ k + 1 / 2) :
    (percentage habits : Int) = specPercentage (completedCount habits) habits.length := by
  by_cases hn : habits.length = 0
  · simp [percentage, specPercentage, hn]
  · have hpos : 0 < habits.length := Nat.pos_of_ne_zero hn
    have hle : completedCount habits ≤ habits.length := List.length_filter_le _ _
    have hmod : (200 * completedCount habits + habits.length) % (2 * habits.length) ≠ 0 := by
      intro h0
      have hdm := Nat.div_add_mod (200 * completedCount habits + habits.length)
        (2 * habits.length)
      rw [h0, Nat.add_zero] at hdm
      obtain ⟨k, hk⟩ : ∃ k : Nat,
          2 * habits.length * k = 200 * completedCount habits + habits.length := ⟨_, hdm⟩
      have hnq : (habits.length : ℚ) ≠ 0 := by exact_mod_cast hn
      have hkq : (2 : ℚ) * habits.length * k
          = 200 * completedCount habits + habits.length := by exact_mod_cast hk
      apply hnt ((k : Int) - 1)
      push_cast
      field_simp
      linear_combination (-1 : ℚ) * hkq
    rw [specPercentage_eq_div _ _ hpos, percentage, if_pos hpos,
      percentOf_eq_spec_of_not_tie _ _ hle hpos hsize hmod]

/-- On every list with fewer than `2 ^ 32` records the displayed percentage is
`round(100 * countCompleted / total)` or one less. -/
theorem percentage_near_spec (habits : List Habit) (hsize : habits.length < 2 ^ 32) :
    (percentage habits : Int) ≤ specPercentage (completedCount habits) habits.length ∧
    specPercentage (completedCount habits) habits.length ≤ (percentage habits : Int) + 1 := by
  by_cases hn : habits.length = 0
  · simp [percentage, specPercentage, hn]
  · have hpos : 0 < habits.length := Nat.pos_of_ne_zero hn
    have hle : completedCount habits ≤ habits.length := List.length_filter_le _ _
    obtain ⟨h1, h2⟩ := percentOf_near_spec _ _ hle hpos hsize
    rw [specPercentage_eq_div _ _ hpos, percentage, if_pos hpos]
    constructor
    · exact_mod_cast h1
    · exact_mod_cast h2

/-- C9, the failing input: on a list of 40 records of which 23 are completed the header
shows `(23, 40, 57)`, while `round(100 * 23 / 40) = round(57.5) = 58`; the quotient
`23 / 40` rounded to binary64 and multiplied by 100 is just below `57.5`. The tie
`100 * 1 / 8 = 12.5`, exact in binary64, is shown as `13`. -/
theorem progress_23_of_40_rounds_down :
    progress fortyHabits = (23, 40, 57) ∧ specPercentage 23 40 = 58 ∧
    (Double.mul (Double.div (Double.ofNat 23) (Double.ofNat 40)) (Double.ofNat 100)).toRat
      < 57 + 1 / 2 ∧
    percentOf 1 8 = 13 ∧ specPercentage 1 8 = 13 := by
  refine ⟨by decide, ?_, ?_, by decide, ?_⟩
  · rw [specPercentage_eq_div 23 40 (by norm_num)]
    norm_num
  rotate_left
  · rw [specPercentage_eq_div 1 8 (by norm_num)]
    norm_num
  · have h : Double.mul (Double.div (Double.ofNat 23) (Double.ofNat 40)) (Double.ofNat 100)
        = { mant := 8092405580431359, expo := -47 } := by decide
    rw [h]
    norm_num [Double.toRat]

end HabitTracker
